import Mathlib

/-!
Shallow embedding of the two exported functions of the repository
`tamadalab/wasm-wat-trimming`:

* `collatz_steps` from `src/trimming-random/3000/data/collatz/src/lib.rs`
* `bubble_sort`   from `src/trimming-tail/5000/data/bubsort/src/lib.rs`

Machine `i32` values are embedded as `Int` with explicit wrapping modulo
`2 ^ 32` where Rust release-mode overflow can occur; `usize` index
arithmetic is embedded as `Nat` (the only subtraction the code performs,
`n - 1 - i` with `i < n`, never underflows, so truncated `Nat` subtraction
agrees with `usize` subtraction on every executed path).  Rust panics
(index out of bounds) are embedded as `none` of an `Option` result, and
the unbounded `while` loop of `collatz_steps` is embedded with explicit
fuel: one unit of fuel is one executed loop iteration, and `none` means
the loop has not finished within the given fuel.
-/

set_option maxRecDepth 100000

namespace WasmWatTrimming

/-- Two's-complement reduction of an integer into the signed 32-bit range
`[-2 ^ 31, 2 ^ 31)`: the wrapping-overflow semantics of Rust release
builds, which the spec fixes as the reference overflow policy. -/
def wrap32 (x : Int) : Int := (x + 2 ^ 31) % 2 ^ 32 - 2 ^ 31

/-- Fuel-indexed embedding of the `while n > 1` loop of `collatz_steps`
(`src/trimming-random/3000/data/collatz/src/lib.rs`, lines 7-14), with the
running `steps` counter as an accumulator.  Inside the loop body the guard
gives `n > 1`, so Lean's `Int` `/` and `%` agree with Rust's `i32` `/` and
`%` there (both operands are positive); the updates `3 * n + 1` and
`steps + 1` wrap like Rust release-mode `i32` arithmetic. -/
def collatzLoop : Nat → Int → Int → Option Int
  | 0, n, steps => if 1 < n then none else some steps
  | fuel + 1, n, steps =>
    if 1 < n then
      collatzLoop fuel (if n % 2 = 0 then n / 2 else wrap32 (3 * n + 1)) (wrap32 (steps + 1))
    else some steps

/-- Embedding of `collatz_steps`: run the loop from `steps = 0`. -/
def collatz_steps (fuel : Nat) (n : Int) : Option Int := collatzLoop fuel n 0

/-- Direct simulation, on natural numbers, of the transformation the spec
documents: halve when even, `3 * n + 1` when odd, repeated while `n > 1`,
returning the number of executed steps (fuel-indexed). -/
def collatzSim : Nat → Nat → Option Nat
  | 0, n => if 1 < n then none else some 0
  | fuel + 1, n =>
    if 1 < n then
      (collatzSim fuel (if n % 2 = 0 then n / 2 else 3 * n + 1)).map (· + 1)
    else some 0

/-- One step of the documented Collatz transformation on natural numbers:
halve when even, `3 * n + 1` when odd. -/
def cstep (n : Nat) : Nat := if n % 2 = 0 then n / 2 else 3 * n + 1

/-- Follow the Collatz trajectory from `v` until it first drops strictly
below the origin `n0`, returning that first smaller value, or `none` if
the given fuel runs out or a trajectory value reaches `2 ^ 31` (so that a
`some` answer also certifies that no value on the followed segment can
overflow a signed 32-bit integer). -/
def descend (n0 : Nat) (fuel : Nat) : Nat → Option Nat :=
  Nat.rec (fun _ => none)
    (fun _ ih v => if v < n0 then some v else if v < 2 ^ 31 then ih (cstep v) else none)
    fuel

/-- The check `descentCheck n` holds when the trajectory from `n` drops below `n`
within 150 steps, all visited values staying below `2 ^ 31`. -/
def descentCheck (n : Nat) : Bool := (descend n 150 n).isSome

/-- Range check: `allFrom f a c = true` iff `f` holds on `a + 1, …, a + c`. -/
def allFrom (f : Nat → Bool) (a : Nat) : Nat → Bool :=
  Nat.rec true (fun k ih => f (a + k + 1) && ih)

/-- Agreement up to step budget `b`: the direct simulation from `v`
terminates in exactly `s ≤ b` steps, and the embedded loop started at any
small enough accumulator `a` finishes with `a + s`. -/
def AgreeA (b v : Nat) : Prop :=
  ∃ s : Nat, s ≤ b ∧ collatzSim s v = some s ∧
    ∀ a : Int, 0 ≤ a → a + s < 2 ^ 31 → collatzLoop s (v : Int) a = some (a + s)

/-- One execution of the inner-loop body of `bubble_sort`
(`src/trimming-tail/5000/data/bubsort/src/lib.rs`, lines 13-15):
read `arr[j]` and `arr[j+1]` and swap them when strictly out of order
(`arr[j] > arr[j+1]`).  `none` models the Rust index-out-of-bounds panic;
the comparison is a parameter so that the same code can be run on
index-tagged values for the stability claim. -/
def cmpSwapAt (gt : α → α → Bool) : List α → Nat → Option (List α)
  | a :: b :: rest, 0 => some (if gt a b then b :: a :: rest else a :: b :: rest)
  | x :: rest, j + 1 => (cmpSwapAt gt rest j).map (x :: ·)
  | _, _ => none

/-- The inner loop `for j in 0..m` of `bubble_sort`, with `m` the bound
`n - 1 - i` computed by the source. -/
def innerFor (gt : α → α → Bool) (m : Nat) (l : List α) : Option (List α) :=
  (List.range m).foldlM (fun acc j => cmpSwapAt gt acc j) l

/-- The outer loop `for i in 0..k` of `bubble_sort`; `n` is the buffer
length fixed before the loops (`let n = arr.len()`), and iteration `i`
runs the inner loop with bound `n - 1 - i` (truncated `Nat` subtraction,
which agrees with `usize` subtraction since `i < n` on every executed
iteration). -/
def outerFor (gt : α → α → Bool) (n k : Nat) (l : List α) : Option (List α) :=
  (List.range k).foldlM (fun acc i => innerFor gt (n - 1 - i) acc) l

/-- The Rust comparison `arr[j] > arr[j + 1]` on `i32` values. -/
def intGt (a b : Int) : Bool := decide (a > b)

/-- Embedding of `bubble_sort`: the caller's buffer is the list, and
`n = arr.len()`; outer loop `for i in 0..n`, inner loop
`for j in 0..n - 1 - i`.  The sole effect of the source function is the
final contents of the buffer, returned here (`none` models a panic). -/
def bubble_sort (l : List Int) : Option (List Int) :=
  outerFor intGt l.length l.length l

/-- The comparison of `bubble_sort` lifted to `(value, original index)`
pairs: only the `i32` value component is compared, exactly as the source
compares buffer elements. -/
def pairGt (a b : Int × Nat) : Bool := intGt a.1 b.1

/-- A run of `bubble_sort` on value-and-original-index pairs: the same loops
with the same comparison on the value component.  Used to express
equal-keys stability of the untagged sort. -/
def bubbleSortTagged (l : List (Int × Nat)) : Option (List (Int × Nat)) :=
  outerFor pairGt l.length l.length l

/-! ### Basic lemmas about the Collatz embedding -/

theorem collatzSim_succ (fuel n : Nat) :
    collatzSim (fuel + 1) n =
      if 1 < n then (collatzSim fuel (cstep n)).map (· + 1) else some 0 := rfl

theorem collatzLoop_succ (fuel : Nat) (n steps : Int) :
    collatzLoop (fuel + 1) n steps =
      if 1 < n then
        collatzLoop fuel (if n % 2 = 0 then n / 2 else wrap32 (3 * n + 1)) (wrap32 (steps + 1))
      else some steps := rfl

theorem wrap32_eq_self (x : Int) (h0 : 0 ≤ x) (h1 : x < 2 ^ 31) : wrap32 x = x := by
  unfold wrap32
  omega

/-- When the loop guard is already false the loop returns its accumulator,
no matter the fuel. -/
theorem collatzLoop_le_one (fuel : Nat) (n a : Int) (h : n ≤ 1) :
    collatzLoop fuel n a = some a := by
  have h' : ¬ (1 : Int) < n := by omega
  cases fuel <;> simp [collatzLoop, h']

/-- Fuel monotonicity of the embedded loop: a run that finishes still
finishes, with the same answer, when given more fuel. -/
theorem collatzLoop_mono (f : Nat) :
    ∀ f' (n a r : Int), f ≤ f' → collatzLoop f n a = some r →
      collatzLoop f' n a = some r := by
  induction f with
  | zero =>
    intro f' n a r _ h0
    unfold collatzLoop at h0
    by_cases hg : (1 : Int) < n
    · simp [hg] at h0
    · simp [hg] at h0
      subst h0
      exact collatzLoop_le_one f' n a (by omega)
  | succ f ih =>
    intro f' n a r hle hrun
    by_cases hg : (1 : Int) < n
    · obtain ⟨f'', rfl⟩ : ∃ f'', f' = f'' + 1 := ⟨f' - 1, by omega⟩
      unfold collatzLoop at hrun ⊢
      simp only [hg, if_true] at hrun ⊢
      exact ih f'' _ _ r (by omega) hrun
    · rw [collatzLoop_le_one _ n a (by omega)] at hrun
      rw [collatzLoop_le_one f' n a (by omega)]
      exact hrun

/-- Claim C3, counterexample:  The claim says `collatz_steps` loops forever
on every `n ≤ 0`; but at the non-positive input `0` the loop guard
`n > 1` is false on entry, so the run finishes within zero loop
iterations (zero fuel) and returns `0`. -/
theorem collatz_nonpos_terminates_counterexample :
    collatz_steps 0 (0 : Int) = some 0 ∧ (0 : Int) ≤ 0 := ⟨rfl, le_refl 0⟩

/-- Claim C3, amended:  For every `n ≤ 0` the call `collatz_steps n`
terminates immediately: the loop guard `n > 1` is false on entry, so no
loop iteration runs (any fuel, even zero, suffices) and the result is
`0`. -/
theorem collatz_steps_nonpos (n : Int) (fuel : Nat) (h : n ≤ 0) :
    collatz_steps fuel n = some 0 :=
  collatzLoop_le_one fuel n 0 (by omega)

theorem collatz_steps_nonpos_witness : collatz_steps 7 (-5 : Int) = some 0 :=
  collatz_steps_nonpos (-5) 7 (by norm_num)

/-- Claim C4:  For every `n ≤ 1` (so in particular `0` and all negative
inputs) `collatz_steps` terminates immediately — the loop guard `n > 1`
is false on entry, so zero loop iterations run regardless of fuel — and
returns `0`; consequently every value it returns on such inputs is a
non-negative signed 32-bit integer. -/
theorem collatz_steps_le_one (n : Int) (fuel : Nat) (h : n ≤ 1) :
    collatz_steps fuel n = some 0 ∧
      ∀ r : Int, collatz_steps fuel n = some r → 0 ≤ r := by
  have h0 : collatz_steps fuel n = some 0 := collatzLoop_le_one fuel n 0 h
  refine ⟨h0, fun r hr => ?_⟩
  rw [h0] at hr
  injection hr with h2
  omega

theorem collatz_steps_le_one_witness :
    collatz_steps 4 (1 : Int) = some 0 ∧
      ∀ r : Int, collatz_steps 4 (1 : Int) = some r → 0 ≤ r :=
  collatz_steps_le_one 1 4 (by norm_num)

/-- Claim C5:  The embedded `3 * n + 1` update wraps modulo `2 ^ 32` into
the signed 32-bit range (two's-complement wrapping, the Rust release-mode
semantics the spec fixes as the reference policy), and this `wrap32`
reduction is applied on every loop iteration with odd `n`: first, `wrap32`
agrees with its argument modulo `2 ^ 32` and lands in `[-2 ^ 31, 2 ^ 31)`;
second, every odd-guard step of the loop rewrites to `wrap32 (3 * n + 1)`;
third, at the concrete odd input `715827883` the intermediate
`3 * n + 1 = 2147483650` exceeds the signed 32-bit range and the loop
continues with the wrapped value `-2147483646`, immediately exiting with
step count `1`. -/
theorem collatz_overflow_wraps :
    (∀ x : Int, wrap32 x % 2 ^ 32 = x % 2 ^ 32 ∧ -2 ^ 31 ≤ wrap32 x ∧ wrap32 x < 2 ^ 31) ∧
    (∀ (fuel : Nat) (n steps : Int), 1 < n → ¬ n % 2 = 0 →
      collatzLoop (fuel + 1) n steps =
        collatzLoop fuel (wrap32 (3 * n + 1)) (wrap32 (steps + 1))) ∧
    2 ^ 31 ≤ 3 * (715827883 : Int) + 1 ∧
    wrap32 (3 * (715827883 : Int) + 1) = -2147483646 ∧
    collatz_steps 300 (715827883 : Int) = some 1 := by
  refine ⟨fun x => ?_, fun fuel n steps hg hodd => ?_, by norm_num, by decide, by decide⟩
  · unfold wrap32
    omega
  · rw [collatzLoop_succ, if_pos hg, if_neg hodd]

theorem collatz_overflow_wraps_witness :
    (wrap32 5 % 2 ^ 32 = (5 : Int) % 2 ^ 32 ∧ -2 ^ 31 ≤ wrap32 5 ∧ wrap32 5 < 2 ^ 31) ∧
    collatzLoop 4 (7 : Int) 2 = collatzLoop 3 (wrap32 (3 * 7 + 1)) (wrap32 (2 + 1)) :=
  ⟨collatz_overflow_wraps.1 5,
    collatz_overflow_wraps.2.1 3 7 2 (by norm_num) (by norm_num)⟩

/-- Claim C9:  `collatz_steps 27` terminates — 111 loop iterations run, so
any fuel of at least 111 suffices — and returns exactly 111. -/
theorem collatz_steps_27 (fuel : Nat) (h : 111 ≤ fuel) :
    collatz_steps fuel (27 : Int) = some 111 := by
  have h111 : collatz_steps 111 (27 : Int) = some 111 := by decide
  exact collatzLoop_mono 111 fuel 27 0 111 h h111

theorem collatz_steps_27_witness : collatz_steps 111 (27 : Int) = some 111 :=
  collatz_steps_27 111 (by norm_num)

/-! ### Agreement of the embedded loop with the direct simulation

The loop and the simulation are compared along each trajectory only until
it first drops below its starting point; termination for every start in
`[1, 10000]` then follows by strong induction.  This keeps the computed
part of the argument (the `descentCheck` evaluations) small. -/

theorem collatzSim_le_one (fuel v : Nat) (h : ¬ 1 < v) : collatzSim fuel v = some 0 := by
  cases fuel <;> simp [collatzSim, h]

theorem collatzSim_mono (f : Nat) :
    ∀ f' v s, f ≤ f' → collatzSim f v = some s → collatzSim f' v = some s := by
  induction f with
  | zero =>
    intro f' v s _ h0
    unfold collatzSim at h0
    by_cases hg : 1 < v
    · simp [hg] at h0
    · simp [hg] at h0
      rw [collatzSim_le_one f' v hg, h0]
  | succ f ih =>
    intro f' v s hle hrun
    by_cases hg : 1 < v
    · obtain ⟨f'', rfl⟩ : ∃ f'', f' = f'' + 1 := ⟨f' - 1, by omega⟩
      rw [collatzSim_succ, if_pos hg] at hrun ⊢
      obtain ⟨s0, hs0, rfl⟩ := Option.map_eq_some'.mp hrun
      rw [ih f'' (cstep v) s0 (by omega) hs0]
      rfl
    · rw [collatzSim_le_one _ v hg] at hrun
      rw [collatzSim_le_one f' v hg, hrun]

theorem descend_zero (n0 v : Nat) : descend n0 0 v = none := rfl

theorem descend_succ (n0 f v : Nat) :
    descend n0 (f + 1) v =
      if v < n0 then some v
      else if v < 2 ^ 31 then descend n0 f (cstep v) else none := rfl

theorem allFrom_spec (f : Nat → Bool) (a : Nat) :
    ∀ c, allFrom f a c = true → ∀ k, a < k → k ≤ a + c → f k = true := by
  intro c
  induction c with
  | zero => intro _ k h1 h2; omega
  | succ c ih =>
    intro h k h1 h2
    have h' : (f (a + c + 1) && allFrom f a c) = true := h
    rw [Bool.and_eq_true] at h'
    by_cases hk : k = a + c + 1
    · exact hk ▸ h'.1
    · exact ih h'.2 k h1 (by omega)

theorem cstep_pos (v : Nat) (h : 1 ≤ v) : 1 ≤ cstep v := by
  unfold cstep
  split <;> omega

theorem agreeA_mono (b b' v : Nat) (h : b ≤ b') (ha : AgreeA b v) : AgreeA b' v := by
  obtain ⟨s, hs, h1, h2⟩ := ha
  exact ⟨s, by omega, h1, h2⟩

theorem agreeA_one : AgreeA 0 1 := by
  refine ⟨0, le_refl 0, rfl, fun a h0 hb => ?_⟩
  rw [collatzLoop_le_one 0 ((1 : Nat) : Int) a (by norm_num)]
  norm_num

theorem agree_step (b v : Nat) (h1 : 1 < v) (h2 : v < 2 ^ 31) (h3 : cstep v < 2 ^ 31)
    (ha : AgreeA b (cstep v)) : AgreeA (b + 1) v := by
  obtain ⟨s, hs, hsim, hloop⟩ := ha
  refine ⟨s + 1, by omega, ?_, ?_⟩
  · rw [collatzSim_succ, if_pos h1, hsim]
    rfl
  · intro a ha0 hab
    rw [collatzLoop_succ, if_pos (by exact_mod_cast h1 : (1 : Int) < (v : Int))]
    have hbranch :
        (if (v : Int) % 2 = 0 then (v : Int) / 2 else wrap32 (3 * (v : Int) + 1)) =
          ((cstep v : Nat) : Int) := by
      unfold cstep
      by_cases hpar : v % 2 = 0
      · rw [if_pos (by omega), if_pos hpar]
        omega
      · rw [if_neg (by omega), if_neg hpar]
        rw [wrap32_eq_self (3 * (v : Int) + 1) (by omega) (by
          have : cstep v = 3 * v + 1 := by unfold cstep; rw [if_neg hpar]
          omega)]
        push_cast
        ring
    rw [hbranch, wrap32_eq_self (a + 1) (by omega) (by push_cast at hab ⊢; omega)]
    rw [hloop (a + 1) (by omega) (by push_cast at hab ⊢; omega)]
    congr 1
    push_cast
    ring

theorem descend_head (n0 f v m : Nat) (h : descend n0 f v = some m) :
    v < n0 ∨ v < 2 ^ 31 := by
  cases f with
  | zero => rw [descend_zero] at h; simp at h
  | succ f =>
    by_cases h1 : v < n0
    · exact Or.inl h1
    · by_cases h2 : v < 2 ^ 31
      · exact Or.inr h2
      · rw [descend_succ, if_neg h1, if_neg h2] at h
        simp at h

theorem descend_lt (n0 : Nat) :
    ∀ f v m, descend n0 f v = some m → 1 ≤ v → 1 ≤ m ∧ m < n0 := by
  intro f
  induction f with
  | zero => intro v m h _; rw [descend_zero] at h; simp at h
  | succ f ih =>
    intro v m h hv
    rw [descend_succ] at h
    by_cases h1 : v < n0
    · rw [if_pos h1] at h
      injection h with h'
      subst h'
      exact ⟨hv, h1⟩
    · rw [if_neg h1] at h
      by_cases h2 : v < 2 ^ 31
      · rw [if_pos h2] at h
        exact ih (cstep v) m h (cstep_pos v hv)
      · rw [if_neg h2] at h; simp at h

theorem descend_agree (n0 : Nat) (hn0 : 2 ≤ n0) :
    ∀ f v m b, descend n0 f v = some m → AgreeA b m → AgreeA (b + f) v := by
  intro f
  induction f with
  | zero => intro v m b h _; rw [descend_zero] at h; simp at h
  | succ f ih =>
    intro v m b h ham
    rw [descend_succ] at h
    by_cases h1 : v < n0
    · rw [if_pos h1] at h
      injection h with h'
      subst h'
      exact agreeA_mono b (b + (f + 1)) v (by omega) ham
    · rw [if_neg h1] at h
      by_cases h2 : v < 2 ^ 31
      · rw [if_pos h2] at h
        have hstep := ih (cstep v) m b h ham
        have h3 : cstep v < 2 ^ 31 := by
          rcases descend_head n0 f (cstep v) m h with hlt | hlt
          · omega
          · exact hlt
        have := agree_step (b + f) v (by omega) h2 h3 hstep
        exact agreeA_mono (b + f + 1) (b + (f + 1)) v (by omega) this
      · rw [if_neg h2] at h; simp at h

set_option maxHeartbeats 4000000 in
theorem descentCheck_all (n : Nat) (h2 : 2 ≤ n) (h10 : n ≤ 10000) :
    descentCheck n = true := by
  have c0 : allFrom descentCheck 1 999 = true := by decide
  have c1 : allFrom descentCheck 1000 1000 = true := by decide
  have c2 : allFrom descentCheck 2000 1000 = true := by decide
  have c3 : allFrom descentCheck 3000 1000 = true := by decide
  have c4 : allFrom descentCheck 4000 1000 = true := by decide
  have c5 : allFrom descentCheck 5000 1000 = true := by decide
  have c6 : allFrom descentCheck 6000 1000 = true := by decide
  have c7 : allFrom descentCheck 7000 1000 = true := by decide
  have c8 : allFrom descentCheck 8000 1000 = true := by decide
  have c9 : allFrom descentCheck 9000 1000 = true := by decide
  by_cases b1 : n ≤ 1000
  · exact allFrom_spec _ _ _ c0 n (by omega) (by omega)
  by_cases b2 : n ≤ 2000
  · exact allFrom_spec _ _ _ c1 n (by omega) (by omega)
  by_cases b3 : n ≤ 3000
  · exact allFrom_spec _ _ _ c2 n (by omega) (by omega)
  by_cases b4 : n ≤ 4000
  · exact allFrom_spec _ _ _ c3 n (by omega) (by omega)
  by_cases b5 : n ≤ 5000
  · exact allFrom_spec _ _ _ c4 n (by omega) (by omega)
  by_cases b6 : n ≤ 6000
  · exact allFrom_spec _ _ _ c5 n (by omega) (by omega)
  by_cases b7 : n ≤ 7000
  · exact allFrom_spec _ _ _ c6 n (by omega) (by omega)
  by_cases b8 : n ≤ 8000
  · exact allFrom_spec _ _ _ c7 n (by omega) (by omega)
  by_cases b9 : n ≤ 9000
  · exact allFrom_spec _ _ _ c8 n (by omega) (by omega)
  exact allFrom_spec _ _ _ c9 n (by omega) (by omega)

/-- Strong induction: every start in `[1, 10000]` agrees with the
simulation, with step count at most `150 * (n + 1)`. -/
theorem collatz_agreeA (n : Nat) : 1 ≤ n → n ≤ 10000 → AgreeA (150 * (n + 1)) n := by
  induction n using Nat.strong_induction_on with
  | _ n ih =>
    intro h1 h10
    by_cases hone : n = 1
    · subst hone
      exact agreeA_mono 0 (150 * (1 + 1)) 1 (by omega) agreeA_one
    · have h2 : 2 ≤ n := by omega
      have hck := descentCheck_all n h2 h10
      unfold descentCheck at hck
      obtain ⟨m, hm⟩ := Option.isSome_iff_exists.mp hck
      have hlt := descend_lt n 150 n m hm (by omega)
      have ham := ih m hlt.2 hlt.1 (by omega)
      have hAg := descend_agree n h2 150 n m (150 * (m + 1)) hm ham
      exact agreeA_mono (150 * (m + 1) + 150) (150 * (n + 1)) n (by omega) hAg

/-- Claim C2:  For every `n` with `1 ≤ n ≤ 10000`: the direct simulation of
the documented transformation (halve when even, `3n + 1` when odd, while
`n > 1`) terminates, in exactly `s` steps for some `s` (with the count
stable under any larger simulation fuel), and the embedded
`collatz_steps` run on `n` terminates as well — any fuel of at least `s`
loop iterations suffices — returning exactly that simulated count `s`. -/
theorem collatz_steps_agrees_simulation (n : Nat) (h1 : 1 ≤ n) (h10 : n ≤ 10000) :
    ∃ s : Nat, collatzSim s n = some s ∧
      (∀ fuel, s ≤ fuel → collatzSim fuel n = some s) ∧
      (∀ fuel, s ≤ fuel → collatz_steps fuel (n : Int) = some (s : Int)) := by
  obtain ⟨s, hs, hsim, hloop⟩ := collatz_agreeA n h1 h10
  refine ⟨s, hsim, fun fuel hf => collatzSim_mono s fuel n s hf hsim, fun fuel hf => ?_⟩
  have hb : (0 : Int) + (s : Int) < 2 ^ 31 := by
    have hsn : s ≤ 150 * (n + 1) := hs
    push_cast
    omega
  have h0 := hloop 0 (le_refl 0) hb
  have hrun := collatzLoop_mono s fuel (n : Int) 0 (0 + (s : Int)) hf h0
  unfold collatz_steps
  rw [hrun]
  norm_num

theorem collatz_steps_agrees_simulation_witness :
    (∃ s : Nat, collatzSim s 6 = some s ∧
      (∀ fuel, s ≤ fuel → collatzSim fuel 6 = some s) ∧
      (∀ fuel, s ≤ fuel → collatz_steps fuel ((6 : Nat) : Int) = some (s : Int))) ∧
    collatz_steps 300 (6 : Int) = some 8 :=
  ⟨collatz_steps_agrees_simulation 6 (by norm_num) (by norm_num), by decide⟩

/-! ### Basic lemmas about the bubble sort embedding -/

theorem cmpSwapAt_zero (gt : α → α → Bool) (a b : α) (t : List α) :
    cmpSwapAt gt (a :: b :: t) 0 =
      some (if gt a b then b :: a :: t else a :: b :: t) := rfl

theorem cmpSwapAt_cons_succ (gt : α → α → Bool) (x : α) (l : List α) (j : Nat) :
    cmpSwapAt gt (x :: l) (j + 1) = (cmpSwapAt gt l j).map (x :: ·) := by
  cases l <;> rfl

/-- A compare-and-swap succeeds exactly when both accessed indices are in
bounds; out of bounds it is the `none` (panic) case. -/
theorem cmpSwapAt_isSome (gt : α → α → Bool) :
    ∀ (l : List α) (j : Nat), j + 1 < l.length → (cmpSwapAt gt l j).isSome = true := by
  intro l
  induction l with
  | nil => intro j h; simp at h
  | cons x xs ih =>
    intro j h
    cases j with
    | zero =>
      cases xs with
      | nil => simp at h
      | cons y ys => rw [cmpSwapAt_zero]; rfl
    | succ j =>
      rw [cmpSwapAt_cons_succ, Option.isSome_map']
      exact ih j (by simp at h; omega)

/-- A successful compare-and-swap preserves length, is a permutation, and
preserves the sublist of elements satisfying any predicate `P` that can
never hold on both ends of a swapped (strictly out of order) pair. -/
theorem cmpSwapAt_inv (gt : α → α → Bool) (P : α → Bool)
    (hP : ∀ x y, gt x y = true → P x = true → P y = true → False) :
    ∀ (l : List α) (j : Nat) (r : List α), cmpSwapAt gt l j = some r →
      r.length = l.length ∧ r.Perm l ∧ r.filter P = l.filter P := by
  intro l
  induction l with
  | nil => intro j r h; cases j <;> simp [cmpSwapAt] at h
  | cons x xs ih =>
    intro j r h
    cases j with
    | zero =>
      cases xs with
      | nil => simp [cmpSwapAt] at h
      | cons y ys =>
        rw [cmpSwapAt_zero] at h
        injection h with h'
        subst h'
        by_cases hxy : gt x y = true
        · rw [if_pos hxy]
          refine ⟨by simp, List.Perm.swap x y ys, ?_⟩
          by_cases hx : P x = true
          · have hy : ¬ P y = true := fun hy => hP x y hxy hx hy
            simp [List.filter_cons, hx, hy]
          · by_cases hy : P y = true <;> simp [List.filter_cons, hx, hy]
        · rw [if_neg hxy]
          exact ⟨rfl, List.Perm.refl _, rfl⟩
    | succ j =>
      rw [cmpSwapAt_cons_succ] at h
      obtain ⟨r0, hr0, rfl⟩ := Option.map_eq_some'.mp h
      obtain ⟨hlen, hperm, hfil⟩ := ih j r0 hr0
      refine ⟨by simp [hlen], hperm.cons x, ?_⟩
      by_cases hx : P x = true <;> simp [List.filter_cons, hx, hfil]

/-- The compare-and-swap at index `p.length` acts on the two elements
just after the prefix `p`. -/
theorem cmpSwapAt_append (gt : α → α → Bool) :
    ∀ (p : List α) (a b : α) (t : List α),
      cmpSwapAt gt (p ++ a :: b :: t) p.length =
        some (p ++ if gt a b then b :: a :: t else a :: b :: t) := by
  intro p
  induction p with
  | nil => intro a b t; simp [cmpSwapAt_zero]
  | cons x p ih =>
    intro a b t
    rw [List.cons_append, show (x :: p).length = p.length + 1 from rfl,
      cmpSwapAt_cons_succ, ih a b t]
    rfl

/-- A compare-and-swap whose two indices lie in the prefix leaves any
suffix untouched. -/
theorem cmpSwapAt_append_left (gt : α → α → Bool) :
    ∀ (f s : List α) (j : Nat), j + 1 < f.length →
      cmpSwapAt gt (f ++ s) j = (cmpSwapAt gt f j).map (· ++ s) := by
  intro f
  induction f with
  | nil => intro s j h; simp at h
  | cons x xs ih =>
    intro s j h
    cases j with
    | zero =>
      cases xs with
      | nil => simp at h
      | cons y ys =>
        by_cases hxy : gt x y = true <;>
          simp [cmpSwapAt_zero, hxy]
    | succ j =>
      rw [List.cons_append, cmpSwapAt_cons_succ, cmpSwapAt_cons_succ,
        ih s j (by simp at h; omega), Option.map_map, Option.map_map]
      rfl

theorem innerFor_zero (gt : α → α → Bool) (l : List α) : innerFor gt 0 l = some l := rfl

theorem innerFor_succ (gt : α → α → Bool) (m : Nat) (l : List α) :
    innerFor gt (m + 1) l = (innerFor gt m l).bind (fun r => cmpSwapAt gt r m) := by
  unfold innerFor
  rw [List.range_succ, List.foldlM_append]
  cases (List.range m).foldlM (fun acc j => cmpSwapAt gt acc j) l with
  | none => rfl
  | some r => simp [List.foldlM]

theorem outerFor_zero (gt : α → α → Bool) (n : Nat) (l : List α) :
    outerFor gt n 0 l = some l := rfl

theorem outerFor_succ (gt : α → α → Bool) (n k : Nat) (l : List α) :
    outerFor gt n (k + 1) l =
      (outerFor gt n k l).bind (fun r => innerFor gt (n - 1 - k) r) := by
  unfold outerFor
  rw [List.range_succ, List.foldlM_append]
  cases (List.range k).foldlM (fun acc i => innerFor gt (n - 1 - i) acc) l with
  | none => rfl
  | some r => simp [List.foldlM]

/-- The inner loop with an in-range bound always succeeds, preserves
length, permutes, and preserves `P`-sublists (hypotheses as in
`cmpSwapAt_inv`). -/
theorem innerFor_inv (gt : α → α → Bool) (P : α → Bool)
    (hP : ∀ x y, gt x y = true → P x = true → P y = true → False) :
    ∀ (m : Nat) (l : List α), m < l.length →
      ∃ r, innerFor gt m l = some r ∧ r.length = l.length ∧ r.Perm l ∧
        r.filter P = l.filter P := by
  intro m
  induction m with
  | zero => intro l _; exact ⟨l, rfl, rfl, List.Perm.refl l, rfl⟩
  | succ m ih =>
    intro l h
    obtain ⟨r0, hr0, hlen0, hperm0, hfil0⟩ := ih l (by omega)
    have hsome := cmpSwapAt_isSome gt r0 m (by omega)
    obtain ⟨r1, hr1⟩ := Option.isSome_iff_exists.mp hsome
    obtain ⟨hlen1, hperm1, hfil1⟩ := cmpSwapAt_inv gt P hP r0 m r1 hr1
    refine ⟨r1, ?_, hlen1.trans hlen0, hperm1.trans hperm0, hfil1.trans hfil0⟩
    rw [innerFor_succ, hr0]
    exact hr1

/-- The inner loop confined to a prefix leaves any suffix untouched. -/
theorem innerFor_append_left (gt : α → α → Bool) :
    ∀ (m : Nat) (f s : List α), m < f.length →
      innerFor gt m (f ++ s) = (innerFor gt m f).map (· ++ s) := by
  intro m
  induction m with
  | zero => intro f s _; rfl
  | succ m ih =>
    intro f s h
    rw [innerFor_succ, innerFor_succ, ih f s (by omega)]
    cases hr : innerFor gt m f with
    | none => rfl
    | some r0 =>
      have hlen : r0.length = f.length := by
        obtain ⟨r, hr', hl, _, _⟩ :=
          innerFor_inv gt (fun _ => false) (fun x y _ hx _ => by simp at hx) m f (by omega)
        rw [hr] at hr'
        injection hr' with h''
        rw [h'']
        exact hl
      show cmpSwapAt gt (r0 ++ s) m = (cmpSwapAt gt r0 m).map (· ++ s)
      exact cmpSwapAt_append_left gt r0 s m (by omega)

/-- The outer loop (with in-range bounds) always succeeds, preserves
length, permutes, and preserves `P`-sublists. -/
theorem outerFor_inv (gt : α → α → Bool) (P : α → Bool)
    (hP : ∀ x y, gt x y = true → P x = true → P y = true → False) :
    ∀ (k n : Nat) (l : List α), k ≤ n → l.length = n →
      ∃ r, outerFor gt n k l = some r ∧ r.length = n ∧ r.Perm l ∧
        r.filter P = l.filter P := by
  intro k
  induction k with
  | zero => intro n l _ hlen; exact ⟨l, rfl, hlen, List.Perm.refl l, rfl⟩
  | succ k ih =>
    intro n l hk hlen
    obtain ⟨r0, hr0, hlen0, hperm0, hfil0⟩ := ih n l (by omega) hlen
    obtain ⟨r1, hr1, hlen1, hperm1, hfil1⟩ :=
      innerFor_inv gt P hP (n - 1 - k) r0 (by omega)
    refine ⟨r1, ?_, hlen1.trans hlen0, hperm1.trans hperm0, hfil1.trans hfil0⟩
    rw [outerFor_succ, hr0]
    exact hr1


/-! ### One pass bubbles the maximum to the end (on `Int` buffers) -/

/-- A full inner pass over a buffer of length `m + 1` succeeds and moves a
maximal element to the last position. -/
theorem innerFor_pass :
    ∀ (m : Nat) (f : List Int), f.length = m + 1 →
      ∃ p b, innerFor intGt m f = some (p ++ [b]) ∧ p.length = m ∧
        List.Perm (p ++ [b]) f ∧ ∀ x ∈ p, x ≤ b := by
  intro m
  induction m with
  | zero =>
    intro f hf
    obtain ⟨a, rfl⟩ := List.length_eq_one.mp hf
    exact ⟨[], a, innerFor_zero _ _, rfl, List.Perm.refl _, by simp⟩
  | succ m ih =>
    intro f hf
    have hne : f ≠ [] := by intro h; subst h; simp at hf
    obtain ⟨g, c, rfl⟩ : ∃ g c, f = g ++ [c] :=
      ⟨f.dropLast, f.getLast hne, (List.dropLast_append_getLast hne).symm⟩
    have hglen : g.length = m + 1 := by simp at hf; omega
    obtain ⟨p, b, hp, hplen, hpperm, hpb⟩ := ih g hglen
    have hinner : innerFor intGt m (g ++ [c]) = some ((p ++ [b]) ++ [c]) := by
      rw [innerFor_append_left intGt m g [c] (by omega), hp]
      rfl
    have hswap : cmpSwapAt intGt ((p ++ [b]) ++ [c]) m =
        some (p ++ if intGt b c then [c, b] else [b, c]) := by
      rw [List.append_assoc, show m = p.length by omega]
      exact cmpSwapAt_append intGt p b c []
    rw [innerFor_succ, hinner]
    by_cases hbc : intGt b c = true
    · refine ⟨p ++ [c], b, ?_, by simp [hplen], ?_, ?_⟩
      · show cmpSwapAt intGt ((p ++ [b]) ++ [c]) m = _
        rw [hswap, if_pos hbc]
        simp
      · have h1 : List.Perm ((p ++ [c]) ++ [b]) ((p ++ [b]) ++ [c]) := by
          rw [List.append_assoc, List.append_assoc]
          exact List.Perm.append_left p (List.Perm.swap b c [])
        exact h1.trans (hpperm.append_right [c])
      · intro x hx
        rcases List.mem_append.mp hx with hx | hx
        · exact hpb x hx
        · have hx' : x = c := by simpa using hx
          have hgt : b > c := of_decide_eq_true hbc
          omega
    · refine ⟨p ++ [b], c, ?_, by simp [hplen], ?_, ?_⟩
      · show cmpSwapAt intGt ((p ++ [b]) ++ [c]) m = _
        rw [hswap, if_neg hbc]
        simp
      · exact hpperm.append_right [c]
      · intro x hx
        have hble : b ≤ c := by
          have hngt : ¬ b > c := fun hgt => hbc (decide_eq_true hgt)
          omega
        rcases List.mem_append.mp hx with hx | hx
        · exact le_trans (hpb x hx) hble
        · have hx' : x = b := by simpa using hx
          omega

/-! ### The outer loop builds a sorted, dominating suffix -/

/-- After `k` outer iterations the last `k` positions hold a sorted
suffix dominating the prefix. -/
theorem outerFor_sorted :
    ∀ (k n : Nat) (l : List Int), k ≤ n → l.length = n →
      ∃ r, outerFor intGt n k l = some r ∧ r.length = n ∧ List.Perm r l ∧
        List.Sorted (· ≤ ·) (r.drop (n - k)) ∧
        ∀ x ∈ r.take (n - k), ∀ y ∈ r.drop (n - k), x ≤ y := by
  intro k
  induction k with
  | zero =>
    intro n l _ hlen
    refine ⟨l, rfl, hlen, List.Perm.refl l, ?_, ?_⟩
    · rw [Nat.sub_zero, ← hlen, List.drop_length]
      exact List.sorted_nil
    · intro x _ y hy
      rw [Nat.sub_zero, ← hlen, List.drop_length] at hy
      simp at hy
  | succ k ih =>
    intro n l hk hlen
    obtain ⟨r, hr, hrlen, hrperm, hrsort, hrdom⟩ := ih n l (by omega) hlen
    have hfs : r.take (n - k) ++ r.drop (n - k) = r := List.take_append_drop _ r
    have hflen : (r.take (n - k)).length = n - k := by
      rw [List.length_take]
      omega
    obtain ⟨p, b, hp, hplen, hpperm, hpb⟩ :=
      innerFor_pass (n - 1 - k) (r.take (n - k)) (by rw [hflen]; omega)
    have hinner0 := innerFor_append_left intGt (n - 1 - k) (r.take (n - k))
      (r.drop (n - k)) (by rw [hflen]; omega)
    rw [hfs, hp] at hinner0
    have hinner : innerFor intGt (n - 1 - k) r = some ((p ++ [b]) ++ r.drop (n - k)) := by
      rw [hinner0]
      rfl
    have hdrop : ((p ++ [b]) ++ r.drop (n - k)).drop (n - (k + 1)) =
        b :: r.drop (n - k) := by
      rw [List.append_assoc, show n - (k + 1) = p.length by omega]
      exact List.drop_left p (b :: r.drop (n - k))
    have htake : ((p ++ [b]) ++ r.drop (n - k)).take (n - (k + 1)) = p := by
      rw [List.append_assoc, show n - (k + 1) = p.length by omega]
      exact List.take_left p (b :: r.drop (n - k))
    have hbf : b ∈ r.take (n - k) := hpperm.mem_iff.mp (by simp)
    refine ⟨(p ++ [b]) ++ r.drop (n - k), ?_, ?_, ?_, ?_, ?_⟩
    · rw [outerFor_succ, hr]
      exact hinner
    · rw [List.length_append, List.length_append, List.length_drop, hplen,
        List.length_singleton, hrlen]
      omega
    · exact ((hpperm.append_right (r.drop (n - k))).trans (by rw [hfs])).trans hrperm
    · rw [hdrop, List.sorted_cons]
      exact ⟨fun y hy => hrdom b hbf y hy, hrsort⟩
    · intro x hx y hy
      rw [htake] at hx
      rw [hdrop] at hy
      have hxf : x ∈ r.take (n - k) := hpperm.mem_iff.mp (by simp [hx])
      rcases List.mem_cons.mp hy with rfl | hy
      · exact hpb x hx
      · exact hrdom x hxf y hy

/-- The full run of `bubble_sort` succeeds and returns a sorted
permutation of the input, of the same length. -/
theorem bubble_sort_spec (l : List Int) :
    ∃ r, bubble_sort l = some r ∧ List.Perm r l ∧ List.Sorted (· ≤ ·) r ∧
      r.length = l.length := by
  obtain ⟨r, hr, hlen, hperm, hsort, _⟩ :=
    outerFor_sorted l.length l.length l (le_refl _) rfl
  rw [Nat.sub_self, List.drop_zero] at hsort
  exact ⟨r, hr, hperm, hsort, hlen⟩

/-! ### A sorted buffer is a fixed point -/

theorem cmpSwapAt_sorted (l : List Int) (hs : List.Sorted (· ≤ ·) l) :
    ∀ j, j + 1 < l.length → cmpSwapAt intGt l j = some l := by
  induction l with
  | nil => intro j h; simp at h
  | cons x xs ih =>
    intro j h
    cases j with
    | zero =>
      cases xs with
      | nil => simp at h
      | cons y ys =>
        rw [cmpSwapAt_zero]
        have hxy : x ≤ y := (List.sorted_cons.mp hs).1 y (by simp)
        rw [if_neg (by simp [intGt]; omega)]
    | succ j =>
      rw [cmpSwapAt_cons_succ, ih (List.sorted_cons.mp hs).2 j (by simp at h; omega)]
      rfl

theorem innerFor_sorted_fix (l : List Int) (hs : List.Sorted (· ≤ ·) l) :
    ∀ m, m < l.length → innerFor intGt m l = some l := by
  intro m
  induction m with
  | zero => intro _; exact innerFor_zero _ _
  | succ m ih =>
    intro h
    rw [innerFor_succ, ih (by omega)]
    exact cmpSwapAt_sorted l hs m h

theorem outerFor_sorted_fix (l : List Int) (hs : List.Sorted (· ≤ ·) l) :
    ∀ k, k ≤ l.length → outerFor intGt l.length k l = some l := by
  intro k
  induction k with
  | zero => intro _; rfl
  | succ k ih =>
    intro hk
    rw [outerFor_succ, ih (by omega)]
    exact innerFor_sorted_fix l hs (l.length - 1 - k) (by omega)

theorem bubble_sort_sorted_fix (l : List Int) (hs : List.Sorted (· ≤ ·) l) :
    bubble_sort l = some l := outerFor_sorted_fix l hs l.length (le_refl _)

/-! ### The tagged run mirrors the plain run -/

theorem cmpSwapAt_map (f : α → β) (gt1 : β → β → Bool) (gt2 : α → α → Bool)
    (hgt : ∀ x y, gt2 x y = gt1 (f x) (f y)) :
    ∀ (l : List α) (j : Nat),
      cmpSwapAt gt1 (l.map f) j = (cmpSwapAt gt2 l j).map (List.map f) := by
  intro l
  induction l with
  | nil => intro j; cases j <;> rfl
  | cons x xs ih =>
    intro j
    cases j with
    | zero =>
      cases xs with
      | nil => rfl
      | cons y ys =>
        simp only [List.map_cons, cmpSwapAt_zero, Option.map_some']
        rw [← hgt x y]
        by_cases h : gt2 x y = true <;> simp [h]
    | succ j =>
      simp only [List.map_cons, cmpSwapAt_cons_succ, ih j, Option.map_map]
      rfl

theorem innerFor_map (f : α → β) (gt1 : β → β → Bool) (gt2 : α → α → Bool)
    (hgt : ∀ x y, gt2 x y = gt1 (f x) (f y)) :
    ∀ (m : Nat) (l : List α),
      innerFor gt1 m (l.map f) = (innerFor gt2 m l).map (List.map f) := by
  intro m
  induction m with
  | zero => intro l; rfl
  | succ m ih =>
    intro l
    rw [innerFor_succ, innerFor_succ, ih l]
    cases hr : innerFor gt2 m l with
    | none => rfl
    | some r =>
      show cmpSwapAt gt1 (r.map f) m = (cmpSwapAt gt2 r m).map (List.map f)
      exact cmpSwapAt_map f gt1 gt2 hgt r m

theorem outerFor_map (f : α → β) (gt1 : β → β → Bool) (gt2 : α → α → Bool)
    (hgt : ∀ x y, gt2 x y = gt1 (f x) (f y)) :
    ∀ (k n : Nat) (l : List α),
      outerFor gt1 n k (l.map f) = (outerFor gt2 n k l).map (List.map f) := by
  intro k
  induction k with
  | zero => intro n l; rfl
  | succ k ih =>
    intro n l
    rw [outerFor_succ, outerFor_succ, ih n l]
    cases hr : outerFor gt2 n k l with
    | none => rfl
    | some r =>
      show innerFor gt1 (n - 1 - k) (r.map f) = (innerFor gt2 (n - 1 - k) r).map (List.map f)
      exact innerFor_map f gt1 gt2 hgt (n - 1 - k) r

/-- Dropping the index tags from a tagged run gives exactly the plain
`bubble_sort` run. -/
theorem bubbleSortTagged_map (l : List (Int × Nat)) :
    bubble_sort (l.map Prod.fst) = (bubbleSortTagged l).map (List.map Prod.fst) := by
  unfold bubble_sort bubbleSortTagged
  rw [List.length_map]
  exact outerFor_map Prod.fst intGt pairGt (fun x y => rfl) l.length l.length l

/-! ### The bubble sort claims -/

/-- Claim C1:  For every finite buffer of signed 32-bit integers, the
embedded `bubble_sort` run succeeds (no panic) and the final buffer
contents are a permutation of the input arranged in non-descending order.
(The source reorders exclusively by `arr.swap(j, j + 1)` within the
caller's buffer and allocates nothing; in the embedding this is reflected
by the result being produced by the swap-only `cmpSwapAt` steps, and the
permutation property is their observable consequence.) -/
theorem bubble_sort_sorts (l : List Int) :
    ∃ r, bubble_sort l = some r ∧ List.Perm r l ∧ List.Sorted (· ≤ ·) r := by
  obtain ⟨r, hr, hperm, hsort, _⟩ := bubble_sort_spec l
  exact ⟨r, hr, hperm, hsort⟩

/-- Claim C6:  With `count == 0` the outer loop `for i in 0..0` performs
zero iterations, so the inner bound `n - 1 - i` is never computed, no
element is accessed (hence no out-of-bounds access and no underflowing
bound), and the empty buffer is returned unchanged; the second conjunct
states the zero-iteration outer loop is the identity on any buffer
contents, which is what "the bound is never evaluated" means in the
embedding. -/
theorem bubble_sort_empty :
    bubble_sort ([] : List Int) = some [] ∧
      ∀ l : List Int, outerFor intGt 0 0 l = some l :=
  ⟨rfl, fun _ => rfl⟩

/-- Claim C7:  Equal-keys stability: running the same loops on
`(value, original index)` pairs — compared only on the value, exactly as
the source compares `arr[j] > arr[j + 1]` — succeeds, projects back to
the plain `bubble_sort` run on the values, and for every key `v` the
sublist of pairs carrying value `v` (their original indices in order) is
exactly unchanged: equal elements are never swapped, so the relative
order of equal-valued elements is preserved. -/
theorem bubble_sort_stable (l : List (Int × Nat)) (v : Int) :
    ∃ r, bubbleSortTagged l = some r ∧
      bubble_sort (l.map Prod.fst) = some (r.map Prod.fst) ∧
      r.filter (fun p => p.1 == v) = l.filter (fun p => p.1 == v) := by
  have hP : ∀ x y : Int × Nat, pairGt x y = true →
      (x.1 == v) = true → (y.1 == v) = true → False := by
    intro x y hgt hx hy
    have hlt : x.1 > y.1 := of_decide_eq_true hgt
    have hx' : x.1 = v := eq_of_beq hx
    have hy' : y.1 = v := eq_of_beq hy
    omega
  obtain ⟨r, hr, _, _, hfil⟩ :=
    outerFor_inv pairGt (fun p => p.1 == v) hP l.length l.length l (le_refl _) rfl
  refine ⟨r, hr, ?_, hfil⟩
  rw [bubbleSortTagged_map]
  show (outerFor pairGt l.length l.length l).map (List.map Prod.fst) = some (r.map Prod.fst)
  rw [hr]
  rfl

/-- Claim C8:  `bubble_sort` is idempotent: feeding its (always defined)
output back into it returns that output unchanged, so two successive
runs leave the buffer exactly as one run does. -/
theorem bubble_sort_idempotent (l : List Int) :
    (bubble_sort l).bind bubble_sort = bubble_sort l := by
  obtain ⟨r, hr, _, hsort, _⟩ := bubble_sort_spec l
  rw [hr]
  show bubble_sort r = some r
  exact bubble_sort_sorted_fix r hsort

/-- Claim C10:  On every buffer of length at least 1 the embedded
`bubble_sort` is total — it returns `some` result (the `none`/panic
branch is unreachable) of the same length — and for every outer index
`i < len` the inner bound `len - 1 - i` is computed without underflow
(witnessed by `(len - 1 - i) + i + 1 = len`, i.e. the `usize`
subtraction is exact), and every inner access pair `arr[j]`, `arr[j+1]`
with `j < len - 1 - i` lies within bounds (`j + 1 < len`). -/
theorem bubble_sort_total (l : List Int) (hlen1 : 1 ≤ l.length) :
    (∃ r, bubble_sort l = some r ∧ r.length = l.length) ∧
      ∀ i, i < l.length →
        (l.length - 1 - i) + i + 1 = l.length ∧
          ∀ j, j < l.length - 1 - i → j + 1 < l.length := by
  refine ⟨?_, fun i hi => ⟨by omega, fun j hj => by omega⟩⟩
  obtain ⟨r, hr, _, _, hlen⟩ := bubble_sort_spec l
  exact ⟨r, hr, hlen⟩

theorem bubble_sort_total_witness :
    (∃ r, bubble_sort [2, 1] = some r ∧ r.length = [2, 1].length) ∧
      ∀ i, i < [2, 1].length →
        ([2, 1].length - 1 - i) + i + 1 = [2, 1].length ∧
          ∀ j, j < [2, 1].length - 1 - i → j + 1 < [2, 1].length :=
  bubble_sort_total [2, 1] (by norm_num)

end WasmWatTrimming
